import Mathlib

/-!
Verification development for the journal-detection dataset-preparation and
inference code (`journal_detection.py`, `journal_test.py`).

Shallow embedding conventions:
* Python floats are modelled as rationals (`ℚ`); the pipeline only performs
  field arithmetic, comparisons and truncation on them, so `ℚ` is exact.
* Images are opaque pixel data: the relevant operations (PIL brightness and
  contrast enhancement, which preserve dimensions) are modelled as free
  constructors carrying the enhancement factor, and an image records its
  pixel dimensions.
* File-system effects of the dataset builder are reified as a list of
  `WriteEvent`s; reading a source image is a parameter
  `imread : String → Option Image` (`none` = unreadable) together with an
  existence test `exs : String → Bool`.
* Python `int(x)` on a nonnegative float is truncation, i.e. `Int.toNat ⌊x⌋`.
-/

namespace JournalDetection

/-- An in-memory image. `raw` carries the pixel dimensions (`shape[:2]` is
`(height, width)`); `brightness` and `contrast` model
`ImageEnhance.Brightness(...).enhance(factor)` and
`ImageEnhance.Contrast(...).enhance(factor)` applied to an image, which
change pixel intensities but not dimensions. -/
inductive Image where
  | raw (width height : ℕ)
  | brightness (factor : ℚ) (img : Image)
  | contrast (factor : ℚ) (img : Image)
deriving DecidableEq, Repr

/-- Pixel width of an image (enhancement preserves it). -/
def Image.width : Image → ℕ
  | .raw w _ => w
  | .brightness _ i => i.width
  | .contrast _ i => i.width

/-- Pixel height of an image (enhancement preserves it). -/
def Image.height : Image → ℕ
  | .raw _ h => h
  | .brightness _ i => i.height
  | .contrast _ i => i.height

/-- The `shape_attributes` dictionary of a VIA region. `name` is the shape
type (`"rect"` for rectangles). -/
structure ShapeAttributes where
  name : String
  x : ℚ
  y : ℚ
  width : ℚ
  height : ℚ
deriving DecidableEq, Repr

/-- The `region_attributes` dictionary; `element_type` is absent (`none`)
when the key is missing. -/
structure RegionAttributes where
  element_type : Option String
deriving DecidableEq, Repr

/-- One annotated region of a VIA entry. -/
structure Region where
  shape_attributes : ShapeAttributes
  region_attributes : RegionAttributes
deriving DecidableEq, Repr

/-- `self.classes`: the fixed ordered class table. -/
def classes : List String :=
  ["date", "title", "journal_entry", "main_image", "sub_image"]

/-- `self.class_weights`: the per-class repeat-weight dictionary, as the
partial lookup a Python `dict` provides (`none` = key absent). -/
def class_weights : String → Option ℚ
  | "date" => some 5
  | "title" => some 4
  | "journal_entry" => some 2
  | "main_image" => some 2
  | "sub_image" => some 1
  | _ => none

/-- `convert_rect_to_yolo(self, x, y, width, height, img_width, img_height)`:
shift the top-left corner to the box center, then normalize each component
by the matching image dimension. -/
def convert_rect_to_yolo (x y width height img_width img_height : ℚ) : List ℚ :=
  let x_center := x + width / 2
  let y_center := y + height / 2
  let x_center := x_center / img_width
  let y_center := y_center / img_height
  let width := width / img_width
  let height := height / img_height
  [x_center, y_center, width, height]

/-- `augment_image(self, image, filename, regions)`: always emit the original
pair; when some region has `element_type == "date"`, additionally emit two
brightness variants (factors 0.8 and 1.2) and two contrast variants (factors
0.9 and 1.1) of the original image, each paired with the same region list.
Returns the two parallel lists `(augmented_images, augmented_regions)`. -/
def augment_image (image : Image) (filename : String) (regions : List Region) :
    List Image × List (List Region) :=
  let date_regions := regions.filter
    (fun r => r.region_attributes.element_type == some "date")
  if date_regions.isEmpty then
    ([image], [regions])
  else
    ([image,
      .brightness (8/10) image, .brightness (12/10) image,
      .contrast (9/10) image, .contrast (11/10) image],
     [regions, regions, regions, regions, regions])

/-- One line of a label file, as produced by the formatted write call:
the class index followed by the four normalized box components. Two lines
are identical exactly when these data coincide. -/
structure LabelLine where
  class_idx : ℕ
  bbox : List ℚ
deriving DecidableEq, Repr

/-- The body of the per-region loop of the label-writing block of
`process_via_annotations`: skip the region unless its shape is a `rect`;
skip it when `element_type` is missing, falsy (empty), or not in the class
table; otherwise emit `int(weight)` copies of the label line, where the
weight is looked up in `class_weights` with the Python `dict.get` default
of `1.0`. -/
def region_label_lines (region : Region) (width height : ℚ) : List LabelLine :=
  if region.shape_attributes.name ≠ "rect" then []
  else
    match region.region_attributes.element_type with
    | none => []
    | some element_type =>
      if element_type == "" || !(classes.contains element_type) then []
      else
        let x := region.shape_attributes.x
        let y := region.shape_attributes.y
        let w := region.shape_attributes.width
        let h := region.shape_attributes.height
        let bbox := convert_rect_to_yolo x y w h width height
        let class_idx := classes.indexOf element_type
        let weight := (class_weights element_type).getD 1
        List.replicate (Int.toNat ⌊weight⌋) ⟨class_idx, bbox⟩

/-- All lines written to one label file: the per-region lines in region
order (duplicates adjacent). -/
def label_file_lines (regions : List Region) (width height : ℚ) : List LabelLine :=
  regions.flatMap (fun region => region_label_lines region width height)

/-- `split_idx = int(len(entries) * split_ratio)`: Python `int()` truncates
toward zero, which for the nonnegative ratios used here is
`Int.toNat ∘ Int.floor`. -/
def split_index (n : ℕ) (split_ratio : ℚ) : ℕ :=
  (⌊(n : ℚ) * split_ratio⌋).toNat

/-- `subset` is `"train"` when `idx < split_idx` and `"val"` otherwise. -/
def subset_of (split_idx idx : ℕ) : String :=
  if idx < split_idx then "train" else "val"

/-- `Path(s).stem`: the filename without its final extension. -/
def pathStem (s : String) : String :=
  match s.splitOn "." with
  | [] => s
  | [p] => p
  | parts => String.intercalate "." parts.dropLast

/-- `Path(s).suffix`: the final extension including the dot, `""` if none. -/
def pathSuffix (s : String) : String :=
  match s.splitOn "." with
  | [] => ""
  | [_] => ""
  | parts => "." ++ parts.getLastD ""

/-- A file-system effect of `process_via_annotations`: saving an image
(`cv2.imwrite` into `images/<subset>`), writing a label file (into
`labels/<subset>`), or printing a skip message. -/
inductive WriteEvent where
  | imageWrite (subset : String) (filename : String) (img : Image)
  | labelWrite (subset : String) (stem : String) (lines : List LabelLine)
  | warn (msg : String)
deriving DecidableEq, Repr

/-- The body of the inner
`for aug_idx, (aug_img, aug_regions) in enumerate(zip(...))` loop:
derive the augmented filename (`<stem>_aug<idx><suffix>` for `aug_idx > 0`),
save the image, and write the label file named after the image stem, with
the dimensions taken from `aug_img.shape[:2]`. -/
def process_pair (subset filename : String) (aug_idx : ℕ) (aug_img : Image)
    (aug_regions : List Region) : List WriteEvent :=
  let aug_filename :=
    if aug_idx > 0 then
      pathStem filename ++ "_aug" ++ toString aug_idx ++ pathSuffix filename
    else filename
  [.imageWrite subset aug_filename aug_img,
   .labelWrite subset (pathStem aug_filename)
     (label_file_lines aug_regions (aug_img.width : ℚ) (aug_img.height : ℚ))]

/-- One iteration of the entry loop of `process_via_annotations`:
`exs` models `src_path.exists()` and `imread` models `cv2.imread`
(`none` = unreadable). A missing or unreadable image is skipped with a
console message; otherwise the train subset gets the augmented versions
and the val subset only the original image. -/
def process_entry (exs : String → Bool) (imread : String → Option Image)
    (idx split_idx : ℕ) (filename : String) (regions : List Region) :
    List WriteEvent :=
  let subset := subset_of split_idx idx
  if exs filename = false then
    [.warn ("Warning: Image not found: " ++ filename)]
  else
    match imread filename with
    | none => [.warn ("Error: Could not read image: " ++ filename)]
    | some img =>
      let p :=
        if subset = "train" then augment_image img filename regions
        else ([img], [regions])
      (p.1.zip p.2).enum.flatMap
        (fun q => process_pair subset filename q.1 q.2.1 q.2.2)

/-- The `for idx, (filename, entry) in enumerate(entries)` loop of
`process_via_annotations`, carrying the running index. -/
def run_entries (exs : String → Bool) (imread : String → Option Image)
    (split_idx : ℕ) : ℕ → List (String × List Region) → List WriteEvent
  | _, [] => []
  | idx, (filename, entry) :: rest =>
    process_entry exs imread idx split_idx filename entry ++
      run_entries exs imread split_idx (idx + 1) rest

/-- `process_via_annotations(self, json_file, split_ratio=0.8)` after the
external steps (JSON parsing and `np.random.shuffle`): `entries` is the
already-shuffled `(filename, regions)` list, the cut index is
`int(len(entries) * split_ratio)`, and the entries are processed in order,
each contributing its write events. -/
def process_via_annotations (exs : String → Bool) (imread : String → Option Image)
    (entries : List (String × List Region)) (split_ratio : ℚ) : List WriteEvent :=
  run_entries exs imread (split_index entries.length split_ratio) 0 entries

/-- One row of `results.xyxy[0]` in `journal_test.py`: corner coordinates,
confidence, and the class index. The detector contract supplies integral
class ids below `len(classes)`, so the index is modelled as `ℕ`. -/
structure Detection where
  x1 : ℚ
  y1 : ℚ
  x2 : ℚ
  y2 : ℚ
  conf : ℚ
  class_id : ℕ
deriving DecidableEq, Repr

/-- `detections[class_name].append(...)`: append a detection to the summary
entry of its class, modelled as an association list over
`classes` (the same five-name table is declared in both source files). -/
def add_detection (dets : List (String × List Detection)) (class_name : String)
    (det : Detection) : List (String × List Detection) :=
  dets.map (fun p => if p.1 == class_name then (p.1, p.2 ++ [det]) else p)

/-- The body of the detection loop of `process_image`: when
`conf >= conf_threshold`, record the detection in the summary and draw it
on the annotated copy (second component); otherwise do nothing. Class ids
out of range, which would raise in Python, fall back to a name outside the
table. -/
def detection_step (conf_threshold : ℚ)
    (acc : List (String × List Detection) × List Detection) (det : Detection) :
    List (String × List Detection) × List Detection :=
  if conf_threshold ≤ det.conf then
    (add_detection acc.1 (classes.getD det.class_id "") det, acc.2 ++ [det])
  else acc

/-- `process_image(self, image_path, conf_threshold=0.5)` after the external
detector call: from the prediction rows, build the per-class summary
dictionary (initialized empty for every class) and the list of detections
drawn on the annotated output image. -/
def process_image (predictions : List Detection) (conf_threshold : ℚ) :
    List (String × List Detection) × List Detection :=
  predictions.foldl (detection_step conf_threshold)
    (classes.map (fun class_name => (class_name, ([] : List Detection))), [])

end JournalDetection

namespace JournalDetection

/-- `C1`: for every input with positive width, height and image dimensions,
`convert_rect_to_yolo` returns exactly the four components
`[(x + w/2)/W, (y + h/2)/H, w/W, h/H]`, in that order. -/
theorem convert_rect_to_yolo_components
    (x y w h W H : ℚ) (hw : 0 < w) (hh : 0 < h) (hW : 0 < W) (hH : 0 < H) :
    convert_rect_to_yolo x y w h W H =
      [(x + w / 2) / W, (y + h / 2) / H, w / W, h / H] := by
  simp [convert_rect_to_yolo]

/-- Witness for `C1` at the concrete input (10, 20, 30, 40, 100, 200). -/
theorem convert_rect_to_yolo_components_witness :
    convert_rect_to_yolo 10 20 30 40 100 200 =
      [(10 + 30 / 2) / 100, (20 + 40 / 2) / 200, 30 / 100, 40 / 200] :=
  convert_rect_to_yolo_components 10 20 30 40 100 200
    (by norm_num) (by norm_num) (by norm_num) (by norm_num)

/-- `C5`: round-trip — applying the inverse mapping
`(x_center·W − (w_norm·W)/2, y_center·H − (h_norm·H)/2, w_norm·W, h_norm·H)`
to the output of the converter reconstructs the original `x, y, w, h` exactly
over the rationals. -/
theorem convert_rect_to_yolo_round_trip
    (x y w h W H : ℚ) (hw : 0 < w) (hh : 0 < h) (hW : 0 < W) (hH : 0 < H) :
    ∀ xc yc wn hn, convert_rect_to_yolo x y w h W H = [xc, yc, wn, hn] →
      xc * W - (wn * W) / 2 = x ∧ yc * H - (hn * H) / 2 = y ∧
      wn * W = w ∧ hn * H = h := by
  intro xc yc wn hn heq
  simp [convert_rect_to_yolo] at heq
  obtain ⟨h1, h2, h3, h4⟩ := heq
  subst h1; subst h2; subst h3; subst h4
  refine ⟨?_, ?_, ?_, ?_⟩
  · field_simp
    ring
  · field_simp
    ring
  · field_simp
  · field_simp

/-- Witness for `C5` at the concrete input (10, 20, 30, 40, 100, 200). -/
theorem convert_rect_to_yolo_round_trip_witness :
    (10 + 30 / 2 : ℚ) / 100 * 100 - (30 / 100 * 100) / 2 = 10 ∧
    (20 + 40 / 2 : ℚ) / 200 * 200 - (40 / 200 * 200) / 2 = 20 ∧
    (30 : ℚ) / 100 * 100 = 30 ∧ (40 : ℚ) / 200 * 200 = 40 :=
  convert_rect_to_yolo_round_trip 10 20 30 40 100 200
    (by norm_num) (by norm_num) (by norm_num) (by norm_num)
    ((10 + 30 / 2) / 100) ((20 + 40 / 2) / 200) (30 / 100) (40 / 200)
    (by norm_num [convert_rect_to_yolo])

/-- Helper: a region whose shape type is not `"rect"` contributes no lines. -/
theorem region_label_lines_skip_shape (region : Region) (W H : ℚ)
    (h : region.shape_attributes.name ≠ "rect") :
    region_label_lines region W H = [] := by
  simp [region_label_lines, h]

/-- Helper: a region with no `element_type` contributes no lines. -/
theorem region_label_lines_skip_none (region : Region) (W H : ℚ)
    (h : region.region_attributes.element_type = none) :
    region_label_lines region W H = [] := by
  simp [region_label_lines, h]

/-- Helper: a region whose `element_type` is not in the class table
contributes no lines. -/
theorem region_label_lines_skip_unknown (region : Region) (W H : ℚ) (et : String)
    (het : region.region_attributes.element_type = some et)
    (hc : classes.contains et = false) :
    region_label_lines region W H = [] := by
  have hc' : et ∉ classes := by simpa using hc
  simp [region_label_lines, het]
  intro _ _ hmem
  exact absurd hmem hc'

/-- Helper: a surviving region (shape `"rect"`, `element_type` in the class
table) contributes exactly `int(weight)` copies of its label line. -/
theorem region_label_lines_emit (region : Region) (W H : ℚ) (et : String)
    (hname : region.shape_attributes.name = "rect")
    (het : region.region_attributes.element_type = some et)
    (hc : classes.contains et = true) :
    region_label_lines region W H =
      List.replicate (Int.toNat ⌊(class_weights et).getD 1⌋)
        ⟨classes.indexOf et,
         convert_rect_to_yolo region.shape_attributes.x region.shape_attributes.y
           region.shape_attributes.width region.shape_attributes.height W H⟩ := by
  have hne : (et == "") = false := by
    rcases hbe : et == "" with _ | _
    · rfl
    · have : et = "" := by simpa using hbe
      subst this
      exact absurd hc (by decide)
  have h1 : ¬ et = "" := by simpa using hne
  have h2 : et ∈ classes := by simpa using hc
  simp [region_label_lines, hname, het]
  rintro (h | h)
  · exact absurd h h1
  · exact absurd h2 h

/-- Helper: the five class weights are whole numbers, so the number of
duplicate lines `int(weight)` equals the weight itself. -/
theorem class_weights_integral (et : String) (hmem : et ∈ classes) :
    ((Int.toNat ⌊(class_weights et).getD 1⌋ : ℚ)) = (class_weights et).getD 1 := by
  simp only [classes] at hmem
  fin_cases hmem <;> norm_num [class_weights] <;> decide

/-- `C4`: the Label Writer skips a region whose shape is not `"rect"` or
whose `element_type` is missing or unknown (zero lines), and otherwise
writes exactly as many identical duplicate lines as the class repeat weight
(looked up with default `1.0`), the weights all being whole numbers. -/
theorem label_writer_region_lines (region : Region) (W H : ℚ) :
    (region.shape_attributes.name ≠ "rect" → region_label_lines region W H = []) ∧
    (region.region_attributes.element_type = none → region_label_lines region W H = []) ∧
    (∀ et, region.region_attributes.element_type = some et →
      classes.contains et = false → region_label_lines region W H = []) ∧
    (∀ et, region.shape_attributes.name = "rect" →
      region.region_attributes.element_type = some et → classes.contains et = true →
      region_label_lines region W H =
        List.replicate (Int.toNat ⌊(class_weights et).getD 1⌋)
          ⟨classes.indexOf et,
           convert_rect_to_yolo region.shape_attributes.x region.shape_attributes.y
             region.shape_attributes.width region.shape_attributes.height W H⟩) ∧
    (∀ et, et ∈ classes →
      ((Int.toNat ⌊(class_weights et).getD 1⌋ : ℚ)) = (class_weights et).getD 1) :=
  ⟨region_label_lines_skip_shape region W H,
   region_label_lines_skip_none region W H,
   fun et het hc => region_label_lines_skip_unknown region W H et het hc,
   fun et hname het hc => region_label_lines_emit region W H et hname het hc,
   fun et hmem => class_weights_integral et hmem⟩

/-- Witness for `C4`: a `"date"` rect region in a 100×200 image yields
exactly five identical lines with class index 0, and an unrecognized
`element_type` yields zero lines. -/
theorem label_writer_region_lines_witness :
    region_label_lines ⟨⟨"rect", 10, 20, 30, 40⟩, ⟨some "date"⟩⟩ 100 200 =
      List.replicate (Int.toNat ⌊(class_weights "date").getD 1⌋)
        ⟨classes.indexOf "date", convert_rect_to_yolo 10 20 30 40 100 200⟩ ∧
    region_label_lines ⟨⟨"rect", 10, 20, 30, 40⟩, ⟨some "header"⟩⟩ 100 200 = [] :=
  ⟨(label_writer_region_lines ⟨⟨"rect", 10, 20, 30, 40⟩, ⟨some "date"⟩⟩ 100 200).2.2.2.1
      "date" rfl rfl (by decide),
   (label_writer_region_lines ⟨⟨"rect", 10, 20, 30, 40⟩, ⟨some "header"⟩⟩ 100 200).2.2.1
      "header" rfl (by decide)⟩

/-- `C10`: every region surviving the shape and element-type filters has a
weight-table entry (the default-1.0 fallback is dead), produces at least
one line, and the class index of every written line lies in 0..4. -/
theorem surviving_region_class_safety (region : Region) (W H : ℚ) (et : String)
    (hname : region.shape_attributes.name = "rect")
    (het : region.region_attributes.element_type = some et)
    (hmem : et ∈ classes) :
    (class_weights et).isSome = true ∧
    1 ≤ (region_label_lines region W H).length ∧
    ∀ line ∈ region_label_lines region W H, line.class_idx ≤ 4 := by
  have hc : classes.contains et = true := by
    simp only [classes] at hmem ⊢
    fin_cases hmem <;> decide
  rw [region_label_lines_emit region W H et hname het hc]
  simp only [classes] at hmem
  fin_cases hmem <;>
    simp [class_weights, classes, List.mem_replicate]

/-- Witness for `C10` at a concrete `"sub_image"` rect region. -/
theorem surviving_region_class_safety_witness :
    (class_weights "sub_image").isSome = true ∧
    1 ≤ (region_label_lines ⟨⟨"rect", 1, 2, 3, 4⟩, ⟨some "sub_image"⟩⟩ 50 60).length ∧
    ∀ line ∈ region_label_lines ⟨⟨"rect", 1, 2, 3, 4⟩, ⟨some "sub_image"⟩⟩ 50 60,
      line.class_idx ≤ 4 :=
  surviving_region_class_safety ⟨⟨"rect", 1, 2, 3, 4⟩, ⟨some "sub_image"⟩⟩ 50 60
    "sub_image" rfl rfl (by decide)

/-- `C2`: the Augmentation Stage returns the original pair followed by the
brightness-0.8, brightness-1.2, contrast-0.9 and contrast-1.1 variants
(five pairs, each with the unmodified region list) when some region has
`element_type` `"date"`, and only the original pair otherwise. -/
theorem augment_image_pairs (image : Image) (filename : String) (regions : List Region) :
    ((∃ r ∈ regions, r.region_attributes.element_type = some "date") →
      augment_image image filename regions =
        ([image, .brightness (8/10) image, .brightness (12/10) image,
          .contrast (9/10) image, .contrast (11/10) image],
         [regions, regions, regions, regions, regions])) ∧
    ((∀ r ∈ regions, ¬ r.region_attributes.element_type = some "date") →
      augment_image image filename regions = ([image], [regions])) := by
  constructor
  · rintro ⟨r, hr, hdate⟩
    have hmem : r ∈ regions.filter
        (fun r => r.region_attributes.element_type == some "date") :=
      List.mem_filter.mpr ⟨hr, by simp [hdate]⟩
    have hne : (regions.filter
        (fun r => r.region_attributes.element_type == some "date")).isEmpty = false := by
      rw [Bool.eq_false_iff]
      intro hemp
      rw [List.isEmpty_iff] at hemp
      rw [hemp] at hmem
      exact absurd hmem (List.not_mem_nil r)
    simp [augment_image, hne]
  · intro hnone
    have hnil : regions.filter
        (fun r => r.region_attributes.element_type == some "date") = [] := by
      rw [List.filter_eq_nil_iff]
      intro a ha
      simpa using hnone a ha
    simp [augment_image, hnil]

/-- Witness for `C2`: a singleton `"date"` region list produces the five
pairs; a `"title"`-only list produces one pair. -/
theorem augment_image_pairs_witness :
    augment_image (.raw 100 200) "j.jpg" [⟨⟨"rect", 1, 2, 3, 4⟩, ⟨some "date"⟩⟩] =
      ([.raw 100 200,
        .brightness (8/10) (.raw 100 200), .brightness (12/10) (.raw 100 200),
        .contrast (9/10) (.raw 100 200), .contrast (11/10) (.raw 100 200)],
       [[⟨⟨"rect", 1, 2, 3, 4⟩, ⟨some "date"⟩⟩], [⟨⟨"rect", 1, 2, 3, 4⟩, ⟨some "date"⟩⟩],
        [⟨⟨"rect", 1, 2, 3, 4⟩, ⟨some "date"⟩⟩], [⟨⟨"rect", 1, 2, 3, 4⟩, ⟨some "date"⟩⟩],
        [⟨⟨"rect", 1, 2, 3, 4⟩, ⟨some "date"⟩⟩]]) ∧
    augment_image (.raw 100 200) "j.jpg" [⟨⟨"rect", 1, 2, 3, 4⟩, ⟨some "title"⟩⟩] =
      ([.raw 100 200], [[⟨⟨"rect", 1, 2, 3, 4⟩, ⟨some "title"⟩⟩]]) :=
  ⟨(augment_image_pairs (.raw 100 200) "j.jpg"
      [⟨⟨"rect", 1, 2, 3, 4⟩, ⟨some "date"⟩⟩]).1
      ⟨⟨⟨"rect", 1, 2, 3, 4⟩, ⟨some "date"⟩⟩, by simp, rfl⟩,
   (augment_image_pairs (.raw 100 200) "j.jpg"
      [⟨⟨"rect", 1, 2, 3, 4⟩, ⟨some "title"⟩⟩]).2 (by decide)⟩

/-- Helper: among the indices `0, …, N-1`, exactly `min k N` are below the
cut `k`. -/
theorem length_filter_lt_range (k N : ℕ) :
    ((List.range N).filter (fun idx => decide (idx < k))).length = min k N := by
  induction N with
  | zero => simp
  | succ n ih =>
    rw [List.range_succ, List.filter_append, List.length_append, ih]
    by_cases h : n < k
    · simp only [List.filter_cons, decide_eq_true_eq, if_pos h, List.filter_nil,
        List.length_cons, List.length_nil]
      omega
    · simp only [List.filter_cons, decide_eq_true_eq, if_neg h, List.filter_nil,
        List.length_nil]
      omega

/-- Helper: among the indices `0, …, N-1`, exactly `N - min k N` are at or
past the cut `k`. -/
theorem length_filter_ge_range (k N : ℕ) :
    ((List.range N).filter (fun idx => !decide (idx < k))).length = N - min k N := by
  induction N with
  | zero => simp
  | succ n ih =>
    rw [List.range_succ, List.filter_append, List.length_append, ih]
    by_cases h : n < k
    · simp [h]
      omega
    · simp [h]
      omega

/-- Helper: an index is assigned `"train"` exactly when it is below the cut. -/
theorem subset_of_train_iff (k idx : ℕ) :
    (subset_of k idx == "train") = decide (idx < k) := by
  by_cases h : idx < k <;> simp [subset_of, h]

/-- Helper: an index is assigned `"val"` exactly when it is at or past the
cut. -/
theorem subset_of_val_iff (k idx : ℕ) :
    (subset_of k idx == "val") = !decide (idx < k) := by
  by_cases h : idx < k <;> simp [subset_of, h]

/-- Helper: for `0 ≤ r ≤ 1` the cut index equals `⌊N·r⌋` and is at most `N`. -/
theorem split_index_eq_floor (N : ℕ) (r : ℚ) (h0 : 0 ≤ r) (h1 : r ≤ 1) :
    ((split_index N r : ℤ) = ⌊(N : ℚ) * r⌋) ∧ split_index N r ≤ N := by
  have hk0 : (0 : ℤ) ≤ ⌊(N : ℚ) * r⌋ :=
    Int.floor_nonneg.mpr (mul_nonneg (Nat.cast_nonneg N) h0)
  have hkN : ⌊(N : ℚ) * r⌋ ≤ (N : ℤ) := by
    have : (N : ℚ) * r ≤ (N : ℚ) :=
      mul_le_of_le_one_right (Nat.cast_nonneg N) h1
    calc ⌊(N : ℚ) * r⌋ ≤ ⌊(N : ℚ)⌋ := Int.floor_le_floor this
      _ = (N : ℤ) := Int.floor_natCast N
  constructor
  · exact Int.toNat_of_nonneg hk0
  · rw [split_index]
    omega

/-- `C3`: with `0 ≤ r ≤ 1`, the splitter assigns exactly `⌊N·r⌋` indices
(those before the cut) to `"train"` and the remaining `N − ⌊N·r⌋` to
`"val"`, and every index is assigned exactly one of the two subsets. -/
theorem split_train_val_counts (N : ℕ) (r : ℚ) (h0 : 0 ≤ r) (h1 : r ≤ 1) :
    ((((List.range N).filter
        (fun idx => subset_of (split_index N r) idx == "train")).length : ℤ)
      = ⌊(N : ℚ) * r⌋) ∧
    (((List.range N).filter
        (fun idx => subset_of (split_index N r) idx == "val")).length
      = N - split_index N r) ∧
    (∀ idx, subset_of (split_index N r) idx = "train" ↔ idx < split_index N r) ∧
    (∀ idx, subset_of (split_index N r) idx = "train" ∨
      subset_of (split_index N r) idx = "val") := by
  obtain ⟨hfloor, hle⟩ := split_index_eq_floor N r h0 h1
  refine ⟨?_, ?_, ?_, ?_⟩
  · have hpred : (fun idx => subset_of (split_index N r) idx == "train")
        = (fun idx => decide (idx < split_index N r)) := by
      funext idx
      exact subset_of_train_iff (split_index N r) idx
    rw [hpred, length_filter_lt_range, min_eq_left hle, hfloor]
  · have hpred : (fun idx => subset_of (split_index N r) idx == "val")
        = (fun idx => !decide (idx < split_index N r)) := by
      funext idx
      exact subset_of_val_iff (split_index N r) idx
    rw [hpred, length_filter_ge_range, min_eq_left hle]
  · intro idx
    by_cases h : idx < split_index N r <;> simp [subset_of, h]
  · intro idx
    by_cases h : idx < split_index N r
    · exact Or.inl (by simp [subset_of, h])
    · exact Or.inr (by simp [subset_of, h])

/-- Witness for `C3` at `N = 10`, `r = 4/5` (the default split ratio):
8 train indices, 2 val indices. -/
theorem split_train_val_counts_witness :
    (((((List.range 10).filter
        (fun idx => subset_of (split_index 10 (4/5)) idx == "train")).length : ℤ)
      = ⌊(10 : ℚ) * (4/5)⌋) ∧
    ((((List.range 10).filter
        (fun idx => subset_of (split_index 10 (4/5)) idx == "val")).length
      = 10 - split_index 10 (4/5))) ∧
    (∀ idx, subset_of (split_index 10 (4/5)) idx = "train" ↔
      idx < split_index 10 (4/5)) ∧
    (∀ idx, subset_of (split_index 10 (4/5)) idx = "train" ∨
      subset_of (split_index 10 (4/5)) idx = "val")) :=
  split_train_val_counts 10 (4/5) (by norm_num) (by norm_num)

/-- `C7`: the converter performs no clamping and no validation: for the
rectangle (60, 0, 100, 10) in a 100×100 image (which extends past the right
edge, `x + w > W`), it returns normally and the first component exceeds 1. -/
theorem convert_rect_to_yolo_no_clamping :
    convert_rect_to_yolo 60 0 100 10 100 100 = [11/10, 1/20, 1, 1/10] ∧
    (1 : ℚ) < 11/10 := by
  constructor
  · norm_num [convert_rect_to_yolo]
  · norm_num

/-- Helper: the entry loop over a concatenation is the concatenation of the
loops, with the index shifted. -/
theorem run_entries_append (exs : String → Bool) (imread : String → Option Image)
    (k : ℕ) (l1 l2 : List (String × List Region)) : ∀ s : ℕ,
    run_entries exs imread k s (l1 ++ l2) =
      run_entries exs imread k s l1 ++ run_entries exs imread k (s + l1.length) l2 := by
  induction l1 with
  | nil => intro s; simp [run_entries]
  | cons e rest ih =>
    intro s
    obtain ⟨fn, regs⟩ := e
    simp only [List.cons_append, run_entries, List.length_cons, List.append_eq]
    rw [ih (s + 1), List.append_assoc]
    have : s + 1 + rest.length = s + (rest.length + 1) := by omega
    rw [this]

/-- Helper: an entry whose image is missing on disk or unreadable produces
exactly one console message and no file writes. -/
theorem process_entry_missing (exs : String → Bool) (imread : String → Option Image)
    (idx k : ℕ) (filename : String) (regions : List Region)
    (h : exs filename = false ∨ imread filename = none) :
    process_entry exs imread idx k filename regions =
      [.warn (if exs filename then "Error: Could not read image: " ++ filename
              else "Warning: Image not found: " ++ filename)] := by
  rcases hex : exs filename with _ | _
  · simp [process_entry, hex]
  · have hrd : imread filename = none := by
      rcases h with h | h
      · rw [hex] at h
        cases h
      · exact h
    simp [process_entry, hex, hrd]

/-- `C8`: an entry whose referenced image file is missing or unreadable is
skipped after one warning message — no image or label file is written for
it — and the run continues with the entries before and after it. -/
theorem missing_image_entry_skipped (exs : String → Bool)
    (imread : String → Option Image) (pre post : List (String × List Region))
    (filename : String) (regions : List Region) (r : ℚ)
    (h : exs filename = false ∨ imread filename = none) :
    process_via_annotations exs imread (pre ++ (filename, regions) :: post) r =
      run_entries exs imread
          (split_index (pre ++ (filename, regions) :: post).length r) 0 pre ++
        [.warn (if exs filename then "Error: Could not read image: " ++ filename
                else "Warning: Image not found: " ++ filename)] ++
        run_entries exs imread
          (split_index (pre ++ (filename, regions) :: post).length r)
          (pre.length + 1) post := by
  unfold process_via_annotations
  rw [run_entries_append exs imread _ pre ((filename, regions) :: post) 0]
  simp only [run_entries, Nat.zero_add]
  rw [process_entry_missing exs imread pre.length _ filename regions h]
  rw [List.append_assoc]

/-- Witness for `C8`: a run over one entry whose image does not exist
prints the warning and writes nothing. -/
theorem missing_image_entry_skipped_witness :
    process_via_annotations (fun _ => false) (fun _ => none)
        ([] ++ ("a.jpg", []) :: []) (4/5) =
      run_entries (fun _ => false) (fun _ => none)
          (split_index ([] ++ ("a.jpg", ([] : List Region)) :: []).length (4/5)) 0 [] ++
        [.warn (if (fun (_ : String) => false) "a.jpg"
                then "Error: Could not read image: " ++ "a.jpg"
                else "Warning: Image not found: " ++ "a.jpg")] ++
        run_entries (fun _ => false) (fun _ => none)
          (split_index ([] ++ ("a.jpg", ([] : List Region)) :: []).length (4/5))
          (List.length ([] : List (String × List Region)) + 1) [] :=
  missing_image_entry_skipped (fun _ => false) (fun _ => none) [] [] "a.jpg" [] (4/5)
    (Or.inl rfl)

/-- `C9`: a `"val"` entry (index at or past the cut) whose image exists and
is readable produces exactly one image write and one label write — the
augmentation branch is taken only for the `"train"` subset, whatever the
regions (in particular for `"date"` regions). -/
theorem val_entry_single_write (exs : String → Bool) (imread : String → Option Image)
    (idx k : ℕ) (filename : String) (regions : List Region) (img : Image)
    (hval : ¬ idx < k) (hex : exs filename = true)
    (hread : imread filename = some img) :
    process_entry exs imread idx k filename regions =
      [.imageWrite "val" filename img,
       .labelWrite "val" (pathStem filename)
         (label_file_lines regions (img.width : ℚ) (img.height : ℚ))] := by
  have hsub : subset_of k idx = "val" := by
    simp [subset_of, hval]
  simp [process_entry, hsub, hex, hread, process_pair]

/-- Witness for `C9`: a val-assigned entry containing a `"date"` region
still yields one image write and one label write. -/
theorem val_entry_single_write_witness :
    process_entry (fun _ => true) (fun _ => some (.raw 100 200)) 1 1 "a.jpg"
        [⟨⟨"rect", 1, 2, 3, 4⟩, ⟨some "date"⟩⟩] =
      [.imageWrite "val" "a.jpg" (.raw 100 200),
       .labelWrite "val" (pathStem "a.jpg")
         (label_file_lines [⟨⟨"rect", 1, 2, 3, 4⟩, ⟨some "date"⟩⟩]
           ((Image.raw 100 200).width : ℚ) ((Image.raw 100 200).height : ℚ))] :=
  val_entry_single_write (fun _ => true) (fun _ => some (.raw 100 200)) 1 1 "a.jpg"
    [⟨⟨"rect", 1, 2, 3, 4⟩, ⟨some "date"⟩⟩] (.raw 100 200)
    (by decide) rfl rfl

/-- Helper: appending a detection to the entry of one class of a summary built
over `classes`. -/
theorem add_detection_map (f : String → List Detection) (name : String) (d : Detection) :
    add_detection (classes.map (fun cn => (cn, f cn))) name d =
      classes.map (fun cn => (cn, if cn == name then f cn ++ [d] else f cn)) := by
  simp only [add_detection, List.map_map, Function.comp]
  apply List.map_congr_left
  intro cn _
  by_cases h : cn = name
  · simp [h]
  · simp [h]

/-- Helper: loop invariant of the detection loop — after processing a list
of predictions starting from the summary and drawn list of an
already-processed list `p`, the state is that of `p ++ preds`. -/
theorem process_image_loop (thr : ℚ) (preds : List Detection) : ∀ p : List Detection,
    List.foldl (detection_step thr)
      (classes.map (fun cn => (cn, p.filter (fun d =>
          decide (thr ≤ d.conf) && (classes.getD d.class_id "" == cn)))),
       p.filter (fun d => decide (thr ≤ d.conf))) preds =
    (classes.map (fun cn => (cn, (p ++ preds).filter (fun d =>
        decide (thr ≤ d.conf) && (classes.getD d.class_id "" == cn)))),
     (p ++ preds).filter (fun d => decide (thr ≤ d.conf))) := by
  induction preds with
  | nil => intro p; simp
  | cons d rest ih =>
    intro p
    rw [List.foldl_cons]
    by_cases hd : thr ≤ d.conf
    · have hstep :
          detection_step thr
            (classes.map (fun cn => (cn, p.filter (fun d =>
                decide (thr ≤ d.conf) && (classes.getD d.class_id "" == cn)))),
             p.filter (fun d => decide (thr ≤ d.conf))) d =
          (classes.map (fun cn => (cn, (p ++ [d]).filter (fun d =>
              decide (thr ≤ d.conf) && (classes.getD d.class_id "" == cn)))),
           (p ++ [d]).filter (fun d => decide (thr ≤ d.conf))) := by
        unfold detection_step
        rw [if_pos hd]
        refine Prod.ext ?_ ?_ <;> dsimp only
        · rw [add_detection_map]
          apply List.map_congr_left
          intro cn _
          rw [List.filter_append]
          by_cases hcn : cn = classes.getD d.class_id ""
          · simp [hcn, hd]
          · have hcn' : ¬cn = (classes[d.class_id]?).getD "" := by
              simpa using hcn
            simp [hd, hcn', Ne.symm hcn']
        · rw [List.filter_append]
          simp [hd]
      rw [hstep, ih (p ++ [d]), List.append_assoc, List.singleton_append]
    · have hstep :
          detection_step thr
            (classes.map (fun cn => (cn, p.filter (fun d =>
                decide (thr ≤ d.conf) && (classes.getD d.class_id "" == cn)))),
             p.filter (fun d => decide (thr ≤ d.conf))) d =
          (classes.map (fun cn => (cn, p.filter (fun d =>
              decide (thr ≤ d.conf) && (classes.getD d.class_id "" == cn)))),
           p.filter (fun d => decide (thr ≤ d.conf))) := by
        unfold detection_step
        rw [if_neg hd]
      rw [hstep, ih p]
      refine Prod.ext ?_ ?_ <;> dsimp only
      · apply List.map_congr_left
        intro cn _
        rw [List.filter_append, List.filter_append, List.filter_cons]
        simp [hd]
      · rw [List.filter_append, List.filter_append, List.filter_cons]
        simp [hd]

/-- `C6`: the Inference Driver keeps a detection in the per-class summary
and in the drawn (annotated) output exactly when its confidence is at least
the threshold; at the concrete detections
`[(10,10,50,50,0.9,0), (5,5,20,20,0.3,1)]` and threshold `0.5`, exactly the
class-0 (`"date"`) detection is kept and the other dropped. -/
theorem process_image_confidence_filter :
    (∀ (predictions : List Detection) (conf_threshold : ℚ),
      process_image predictions conf_threshold =
        (classes.map (fun cn => (cn, predictions.filter (fun d =>
            decide (conf_threshold ≤ d.conf) &&
              (classes.getD d.class_id "" == cn)))),
         predictions.filter (fun d => decide (conf_threshold ≤ d.conf)))) ∧
    process_image
        [⟨10, 10, 50, 50, 9/10, 0⟩, ⟨5, 5, 20, 20, 3/10, 1⟩] (1/2) =
      ([("date", [⟨10, 10, 50, 50, 9/10, 0⟩]), ("title", []),
        ("journal_entry", []), ("main_image", []), ("sub_image", [])],
       [⟨10, 10, 50, 50, 9/10, 0⟩]) := by
  have hgen : ∀ (predictions : List Detection) (conf_threshold : ℚ),
      process_image predictions conf_threshold =
        (classes.map (fun cn => (cn, predictions.filter (fun d =>
            decide (conf_threshold ≤ d.conf) &&
              (classes.getD d.class_id "" == cn)))),
         predictions.filter (fun d => decide (conf_threshold ≤ d.conf))) := by
    intro preds thr
    have h := process_image_loop thr preds []
    simpa [process_image] using h
  refine ⟨hgen, ?_⟩
  rw [hgen]
  norm_num [classes]
  decide

end JournalDetection
